import Mathlib

/- Verification development for the pointer-permutation test suite
   (shuffle-based permuted-linked-list generator and its cycle / stride
   verifier).

   Pointers into the `uint64_t` array are modelled as indices `0 .. N-1`
   (the C code stores `&list[k]` into slots and only ever uses pointer
   differences `p - list` and `(uint64_t*)*p - p`, which are exactly index
   values and index differences), so a successor array is a `List Nat`.

   Machine `int` / `uint64_t` arithmetic in the modelled fragment never
   overflows for the sizes the program uses, so indices are `Nat` and
   strides are `Int`. -/

/-- Swap of the elements at positions `i` and `j` of a list, the elementary
operation `std::swap(first[i], first[j])` of a Fisher-Yates shuffle. -/
def listSwap (l : List Nat) (i j : Nat) : List Nat :=
  (l.set i (l.getD j 0)).set j (l.getD i 0)

/-- Fisher-Yates steps of `std::shuffle`: with fuel `i`, swaps position
`lo + i` with `lo + (picks i % (i+1))` and recurses downwards, so the swap
partner is a position in `[lo, lo+i]`.  `picks` is the stream of raw random
draws of the engine; taking it `% (i+1)` is the uniform reduction onto
`[0, i]` performed by the distribution, and quantifying over all `picks`
covers every outcome the random engine can produce. -/
def fyAux (picks : Nat → Nat) (lo : Nat) : Nat → List Nat → List Nat
  | 0, l => l
  | i+1, l => fyAux picks lo i (listSwap l (lo + (i+1)) (lo + picks (i+1) % (i+2)))

/-- Model of `std::shuffle(first, last, gen)` on the `n = last - first`
element positions `lo, lo+1, ..., lo+n-1` of a list: the Fisher-Yates
shuffle required by the C++ standard, parameterised by the random draws. -/
def stdShuffle (l : List Nat) (lo n : Nat) (picks : Nat → Nat) : List Nat :=
  fyAux picks lo (n - 1) l

/-- The initial `traversal_order` buffer of
`external_shuffle_generator::getlist`: `[0, 1, ..., N-1, 0]` (`N + 1`
entries, the trailing `0` closing the cycle). -/
def initOrder (N : Nat) : List Nat := List.range N ++ [0]

/-- The `traversal_order` buffer after
`std::shuffle(traversal_order + 1, traversal_order + (N - 1), gen)`:
the shuffled range is the `N - 2` positions `1 .. N-2`. -/
def shuffledOrder (N : Nat) (picks : Nat → Nat) : List Nat :=
  stdShuffle (initOrder N) 1 (N - 2) picks

/-- The write loop of `external_shuffle_generator::getlist`:
`for (i = 0; i < N; i++) list[traversal_order[i]] = &list[traversal_order[i+1]]`,
unrolled as a recursion on the remaining step count. -/
def writeSuccAux (t : List Nat) : Nat → Nat → List Nat → List Nat
  | _, 0, mem => mem
  | i, steps+1, mem => writeSuccAux t (i+1) steps (mem.set (t.getD i 0) (t.getD (i+1) 0))

/-- The successor array built from a traversal order `t` for `N` elements.
The C array is uninitialised before the write loop; `0` stands for its junk
contents (for every traversal order the generator actually produces, all `N`
slots are overwritten). -/
def writeSucc (t : List Nat) (N : Nat) : List Nat :=
  writeSuccAux t 0 N (List.replicate N 0)

/-- `external_shuffle_generator::getlist` for size `N`, parameterised by the
random draws of the Mersenne-Twister engine.  (For `N = 1` the C code hands
`std::shuffle` the invalid iterator range `[t+1, t+0)`, which is undefined
behaviour; this definition is faithful for `N ≥ 2`.) -/
def getlist (N : Nat) (picks : Nat → Nat) : List Nat :=
  writeSucc (shuffledOrder N picks) N

/-- State of the verifier loop in `testGenerator`: current position
`p - list`, the `visited` flags, the `cyclelength` counter, the `strides`
histogram (`2N` buckets), and the successor array `mem` being read.
`recorded` is a ghost trace listing the value of the local variable
`stride` computed in each iteration, in order; it instruments the loop
without altering it. -/
structure AnalyzeState where
  p : Nat
  visited : List Bool
  cyclelength : Nat
  strides : List Nat
  recorded : List Int
  mem : List Nat
deriving DecidableEq

/-- The histogram update `strides[N + stride]++`.  An out-of-range index
would be an out-of-bounds write (undefined behaviour in C); it is modelled
as leaving the buffer unchanged, and the in-range theorems below show the
guard is never needed for valid successor arrays. -/
def histIncr (l : List Nat) (idx : Int) : List Nat :=
  if 0 ≤ idx ∧ idx.toNat < l.length then l.set idx.toNat (l.getD idx.toNat 0 + 1) else l

/-- One iteration of the verifier's do-while body:
mark `visited[p - list]`, increment `cyclelength`, record
`stride = (uint64_t*)*p - p` in the histogram, advance `p = (uint64_t*)*p`. -/
def stepChase (N : Nat) (s : AnalyzeState) : AnalyzeState :=
  { p := s.mem.getD s.p 0
    visited := s.visited.set s.p true
    cyclelength := s.cyclelength + 1
    strides := histIncr s.strides ((N : Int) + (((s.mem.getD s.p 0) : Int) - (s.p : Int)))
    recorded := s.recorded ++ [((s.mem.getD s.p 0) : Int) - (s.p : Int)]
    mem := s.mem }

/-- The verifier's do-while loop `do { ... } while (!visited[p - list])`,
with an explicit iteration budget `fuel`; `none` means the budget was
exhausted before the loop exited. -/
def chase (N : Nat) : Nat → AnalyzeState → Option AnalyzeState
  | 0, _ => none
  | fuel+1, s =>
    if (stepChase N s).visited.getD (stepChase N s).p false = true then some (stepChase N s)
    else chase N fuel (stepChase N s)

/-- The verifier's state just before its do-while loop: `p = list`
(index `0`), all `visited` flags `false`, `cyclelength = 0`, all `2N`
stride buckets `0`. -/
def initState (mem : List Nat) (N : Nat) : AnalyzeState :=
  { p := 0
    visited := List.replicate N false
    cyclelength := 0
    strides := List.replicate (2 * N) 0
    recorded := []
    mem := mem }

/-- The verifier of `testGenerator` applied to a successor array: run the
chase loop from index `0` with iteration budget `N` (the loop marks one
fresh index per iteration, so `N` iterations always suffice). -/
def analyze (mem : List Nat) (N : Nat) : Option AnalyzeState :=
  chase N N (initState mem N)

/-- The coverage figure `float covered = (100.0 * cyclelength) / N` of
`testGenerator`, in exact rational arithmetic. -/
def coveragePercent (N cyclelength : Nat) : ℚ :=
  (100 * cyclelength : ℚ) / N

/-- The `maxAmount` computation of the histogram reporter: the maximum
bucket count, starting from `0`. -/
def maxAmount (hist : List Nat) : Nat := hist.foldl max 0

/-- The bar lengths `int dots = 40 * hist[i] / maxAmount` of the histogram
reporter.  The C code performs this division unconditionally; when
`maxAmount = 0` it divides by zero, which is undefined behaviour and is
modelled as `none`. -/
def barDots (hist : List Nat) : Option (List Nat) :=
  if maxAmount hist = 0 then none
  else some (hist.map (fun h => 40 * h / maxAmount hist))

/- List helper lemmas used throughout the development. -/

theorem getD_set_self {α : Type} (l : List α) (i : Nat) (v d : α) (h : i < l.length) :
    (l.set i v).getD i d = v := by
  rw [List.getD_eq_getElem?_getD, List.getElem?_set_self h]
  rfl

theorem getD_set_ne {α : Type} (l : List α) (i j : Nat) (v d : α) (h : i ≠ j) :
    (l.set i v).getD j d = l.getD j d := by
  rw [List.getD_eq_getElem?_getD, List.getElem?_set_ne h, ← List.getD_eq_getElem?_getD]

theorem getD_mem {α : Type} (l : List α) (i : Nat) (d : α) (h : i < l.length) :
    l.getD i d ∈ l := by
  rw [List.getD_eq_getElem l d h]
  exact List.getElem_mem h

theorem getD_replicate_self {α : Type} (n i : Nat) (a : α) :
    (List.replicate n a).getD i a = a := by
  rw [List.getD_eq_getElem?_getD, List.getElem?_replicate]
  split <;> rfl

theorem headI_eq_getD (l : List Nat) (h : l ≠ []) : l.headI = l.getD 0 0 := by
  cases l with
  | nil => exact absurd rfl h
  | cons a t => rfl

theorem getLastD_irrel (l : List Nat) (d d' : Nat) (h : l ≠ []) :
    l.getLastD d = l.getLastD d' := by
  cases l with
  | nil => exact absurd rfl h
  | cons a t => rw [List.getLastD_cons, List.getLastD_cons]

theorem getLastD_eq_getD (l : List Nat) (h : l ≠ []) :
    l.getLastD 0 = l.getD (l.length - 1) 0 := by
  induction l with
  | nil => exact absurd rfl h
  | cons a t ih =>
    cases t with
    | nil => rfl
    | cons b u =>
      rw [List.getLastD_cons, getLastD_irrel _ a 0 (by simp), ih (by simp)]
      simp [List.getD_cons_succ]

theorem getLastD_mem (l : List Nat) (h : l ≠ []) : l.getLastD 0 ∈ l := by
  rw [getLastD_eq_getD l h]
  exact getD_mem _ _ _ (by have := List.length_pos.mpr h; omega)

theorem nodup_getD_ne (l : List Nat) (hnd : l.Nodup) (a b : Nat) (hab : a < b)
    (hb : b < l.length) : l.getD a 0 ≠ l.getD b 0 := by
  have ha : a < l.length := lt_trans hab hb
  rw [List.getD_eq_getElem l 0 ha, List.getD_eq_getElem l 0 hb]
  intro h
  have := (hnd.getElem_inj_iff).mp h
  omega

theorem sum_set_getD_succ : ∀ (l : List Nat) (i : Nat), i < l.length →
    (l.set i (l.getD i 0 + 1)).sum = l.sum + 1 := by
  intro l
  induction l with
  | nil => intro i h; simp at h
  | cons a t ih =>
    intro i h
    cases i with
    | zero => simp [List.set_cons_zero, List.sum_cons, List.getD_cons_zero]; omega
    | succ j =>
      rw [List.getD_cons_succ, List.set_cons_succ, List.sum_cons, List.sum_cons,
        ih j (by simpa using h)]
      omega

theorem count_false_set_true : ∀ (v : List Bool) (i : Nat), i < v.length →
    v.getD i false = false → (v.set i true).count false + 1 = v.count false := by
  intro v
  induction v with
  | nil => intro i h; simp at h
  | cons a t ih =>
    intro i h hf
    cases i with
    | zero =>
      rw [List.getD_cons_zero] at hf
      subst hf
      simp [List.set_cons_zero, List.count_cons]
    | succ j =>
      rw [List.getD_cons_succ] at hf
      rw [List.set_cons_succ, List.count_cons, List.count_cons,
        ← ih j (by simpa using h) hf]
      omega

theorem count_true_set_true : ∀ (v : List Bool) (i : Nat), i < v.length →
    v.getD i false = false → (v.set i true).count true = v.count true + 1 := by
  intro v
  induction v with
  | nil => intro i h; simp at h
  | cons a t ih =>
    intro i h hf
    cases i with
    | zero =>
      rw [List.getD_cons_zero] at hf
      subst hf
      simp [List.set_cons_zero, List.count_cons]
    | succ j =>
      rw [List.getD_cons_succ] at hf
      rw [List.set_cons_succ, List.count_cons, List.count_cons,
        ih j (by simpa using h) hf]
      omega

theorem count_false_pos (v : List Bool) (i : Nat) (h : i < v.length)
    (hf : v.getD i false = false) : 0 < v.count false := by
  rw [List.count_pos_iff]
  rw [List.getD_eq_getElem _ _ h] at hf
  exact hf ▸ List.getElem_mem h

theorem getD_take (l : List Nat) (n i : Nat) (h : i < n) :
    (l.take n).getD i 0 = l.getD i 0 := by
  rw [List.getD_eq_getElem?_getD, List.getElem?_take, if_pos h, ← List.getD_eq_getElem?_getD]

theorem take_succ_getD (l : List Nat) (n : Nat) (h : l ≠ []) :
    l.take (n + 1) = l.getD 0 0 :: (l.drop 1).take n := by
  cases l with
  | nil => exact absurd rfl h
  | cons a t => rfl

theorem eq_singleton_of_length_one (l : List Nat) (h : l.length = 1) :
    l = [l.getD 0 0] := by
  cases l with
  | nil => simp at h
  | cons a t =>
    cases t with
    | nil => rfl
    | cons b u => simp at h

theorem eq_take_append_last (l : List Nat) (N : Nat) (h : l.length = N + 1) :
    l = l.take N ++ [l.getD N 0] := by
  have h1 : l.drop N = [(l.drop N).getD 0 0] :=
    eq_singleton_of_length_one _ (by simp [List.length_drop, h])
  have h2 : (l.drop N).getD 0 0 = l.getD N 0 := by
    rw [List.getD_eq_getElem?_getD, List.getElem?_drop, Nat.add_zero,
      ← List.getD_eq_getElem?_getD]
  calc l = l.take N ++ l.drop N := (List.take_append_drop N l).symm
    _ = l.take N ++ [l.getD N 0] := by rw [h1, h2]

/- Lemmas about the verifier's chase loop. -/

theorem histIncr_length (l : List Nat) (idx : Int) : (histIncr l idx).length = l.length := by
  unfold histIncr
  split
  · rw [List.length_set]
  · rfl

theorem chase_mem_eq (N : Nat) : ∀ (fuel : Nat) (s s' : AnalyzeState),
    chase N fuel s = some s' → s'.mem = s.mem := by
  intro fuel
  induction fuel with
  | zero => intro s s' h; simp [chase] at h
  | succ n ih =>
    intro s s' h
    simp only [chase] at h
    split at h
    · injection h with h
      rw [← h]
      rfl
    · exact ih (stepChase N s) _ h

theorem chase_strides_length (N : Nat) : ∀ (fuel : Nat) (s s' : AnalyzeState),
    chase N fuel s = some s' → s'.strides.length = s.strides.length := by
  intro fuel
  induction fuel with
  | zero => intro s s' h; simp [chase] at h
  | succ n ih =>
    intro s s' h
    simp only [chase] at h
    split at h
    · injection h with h
      rw [← h]
      exact histIncr_length _ _
    · rw [ih (stepChase N s) _ h]
      exact histIncr_length _ _

theorem chase_total (N : Nat) : ∀ (fuel : Nat) (s : AnalyzeState),
    (∀ i, i < N → s.mem.getD i 0 < N) →
    s.visited.length = N →
    s.p < N →
    s.visited.getD s.p false = false →
    s.visited.count false ≤ fuel →
    ∃ s', chase N fuel s = some s' ∧ s.cyclelength < s'.cyclelength ∧
      s'.cyclelength ≤ s.cyclelength + s.visited.count false := by
  intro fuel
  induction fuel with
  | zero =>
    intro s hmem hlen hp hunv hcnt
    have := count_false_pos s.visited s.p (by rw [hlen]; exact hp) hunv
    omega
  | succ n ih =>
    intro s hmem hlen hp hunv hcnt
    have hqlt : (stepChase N s).p < N := hmem s.p hp
    have hcnt1 : (stepChase N s).visited.count false + 1 = s.visited.count false :=
      count_false_set_true s.visited s.p (by rw [hlen]; exact hp) hunv
    have hstep_cyc : (stepChase N s).cyclelength = s.cyclelength + 1 := rfl
    by_cases hcond : (stepChase N s).visited.getD (stepChase N s).p false = true
    · refine ⟨stepChase N s, ?_, by omega, by omega⟩
      simp only [chase]
      rw [if_pos hcond]
    · have hunv' : (stepChase N s).visited.getD (stepChase N s).p false = false :=
        eq_false_of_ne_true hcond
      have hlen' : (stepChase N s).visited.length = N := by
        show (s.visited.set s.p true).length = N
        rw [List.length_set]
        exact hlen
      obtain ⟨s', h1, h2, h3⟩ := ih (stepChase N s) hmem hlen' hqlt hunv' (by omega)
      refine ⟨s', ?_, by omega, by omega⟩
      simp only [chase]
      rw [if_neg hcond]
      exact h1

theorem chase_sum (N : Nat) : ∀ (fuel : Nat) (s s' : AnalyzeState),
    chase N fuel s = some s' →
    (∀ i, i < N → s.mem.getD i 0 < N) →
    s.p < N →
    s.strides.length = 2 * N →
    s.strides.sum = s.cyclelength →
    s'.strides.sum = s'.cyclelength := by
  intro fuel
  induction fuel with
  | zero => intro s s' h; simp [chase] at h
  | succ n ih =>
    intro s s' h hmem hp hlen hsum
    have hq : s.mem.getD s.p 0 < N := hmem s.p hp
    have hidx0 : (0:Int) ≤ (N : Int) + (((s.mem.getD s.p 0) : Int) - (s.p : Int)) := by
      omega
    have hidxlt : ((N : Int) + (((s.mem.getD s.p 0) : Int) - (s.p : Int))).toNat <
        s.strides.length := by
      rw [hlen]; omega
    have hstep_sum : (stepChase N s).strides.sum = (stepChase N s).cyclelength := by
      show (histIncr s.strides _).sum = s.cyclelength + 1
      unfold histIncr
      rw [if_pos ⟨hidx0, hidxlt⟩, sum_set_getD_succ s.strides _ hidxlt, hsum]
    have hstep_len : (stepChase N s).strides.length = 2 * N := by
      show (histIncr s.strides _).length = 2 * N
      rw [histIncr_length]
      exact hlen
    simp only [chase] at h
    split at h
    · injection h with h
      rw [← h]
      exact hstep_sum
    · exact ih (stepChase N s) _ h hmem hq hstep_len hstep_sum

theorem chase_recorded (N : Nat) : ∀ (fuel : Nat) (s s' : AnalyzeState),
    chase N fuel s = some s' →
    (∀ i, i < N → s.mem.getD i 0 < N) →
    s.p < N →
    (∀ x ∈ s.recorded, -((N : Int) - 1) ≤ x ∧ x ≤ (N : Int) - 1) →
    ∀ x ∈ s'.recorded, -((N : Int) - 1) ≤ x ∧ x ≤ (N : Int) - 1 := by
  intro fuel
  induction fuel with
  | zero => intro s s' h; simp [chase] at h
  | succ n ih =>
    intro s s' h hmem hp hrec
    have hq : s.mem.getD s.p 0 < N := hmem s.p hp
    have hstep_rec : ∀ x ∈ (stepChase N s).recorded,
        -((N : Int) - 1) ≤ x ∧ x ≤ (N : Int) - 1 := by
      intro x hx
      rcases List.mem_append.mp hx with hx | hx
      · exact hrec x hx
      · have : x = ((s.mem.getD s.p 0 : Int)) - (s.p : Int) := by simpa using hx
        subst this
        omega
    simp only [chase] at h
    split at h
    · injection h with h
      rw [← h]
      exact hstep_rec
    · exact ih (stepChase N s) _ h hmem hq hstep_rec

theorem foldl_set_true_count : ∀ (path : List Nat) (v : List Bool),
    path.Nodup → (∀ z ∈ path, z < v.length ∧ v.getD z false = false) →
    (path.foldl (fun w z => w.set z true) v).count true = v.count true + path.length := by
  intro path
  induction path with
  | nil => intro v _ _; simp
  | cons z rest ih =>
    intro v hnd hz
    have h1 := hz z (by simp)
    have hrec : (rest.foldl (fun w z => w.set z true) (v.set z true)).count true =
        (v.set z true).count true + rest.length := by
      apply ih
      · exact (List.nodup_cons.mp hnd).2
      · intro w hw
        refine ⟨?_, ?_⟩
        · rw [List.length_set]
          exact (hz w (List.mem_cons_of_mem _ hw)).1
        · have hne : z ≠ w := fun hh => (List.nodup_cons.mp hnd).1 (hh ▸ hw)
          rw [getD_set_ne _ _ _ _ _ hne]
          exact (hz w (List.mem_cons_of_mem _ hw)).2
    rw [List.foldl_cons, hrec, count_true_set_true v z h1.1 h1.2]
    simp [List.length_cons]
    omega

theorem chase_path (N : Nat) : ∀ (path : List Nat) (fuel : Nat) (s : AnalyzeState),
    path ≠ [] →
    path.Nodup →
    (∀ x ∈ path, x < N) →
    (∀ x ∈ path, s.visited.getD x false = false) →
    s.visited.length = N →
    s.p = path.headI →
    (∀ i, i + 1 < path.length → s.mem.getD (path.getD i 0) 0 = path.getD (i + 1) 0) →
    (s.mem.getD (path.getLastD 0) 0 ∈ path ∨
      s.visited.getD (s.mem.getD (path.getLastD 0) 0) false = true) →
    path.length ≤ fuel →
    ∃ s', chase N fuel s = some s' ∧
      s'.mem = s.mem ∧
      s'.cyclelength = s.cyclelength + path.length ∧
      s'.p = s.mem.getD (path.getLastD 0) 0 ∧
      s'.visited = path.foldl (fun v x => v.set x true) s.visited ∧
      s'.recorded = s.recorded ++ path.map (fun x => ((s.mem.getD x 0 : Int)) - (x : Int)) := by
  intro path
  induction path with
  | nil => intro fuel s h; exact absurd rfl h
  | cons x rest ih =>
    intro fuel s _ hnd hb hunv hlen hp hcons hlast hfuel
    obtain ⟨f, rfl⟩ : ∃ f, fuel = f + 1 := by
      cases fuel with
      | zero => simp at hfuel
      | succ f => exact ⟨f, rfl⟩
    have hpx : s.p = x := hp
    have hxN : x < N := hb x (by simp)
    have hxlen : x < s.visited.length := by rw [hlen]; exact hxN
    have hstep_p : (stepChase N s).p = s.mem.getD x 0 := by
      show s.mem.getD s.p 0 = s.mem.getD x 0
      rw [hpx]
    cases rest with
    | nil =>
      have hcond : (stepChase N s).visited.getD (stepChase N s).p false = true := by
        rw [hstep_p]
        show (s.visited.set s.p true).getD (s.mem.getD x 0) false = true
        rw [hpx]
        rcases hlast with hq | hq
        · have hqx : s.mem.getD x 0 = x := by simpa using hq
          rw [hqx]
          exact getD_set_self _ _ _ _ hxlen
        · by_cases hqx : s.mem.getD x 0 = x
          · rw [hqx]
            exact getD_set_self _ _ _ _ hxlen
          · rw [getD_set_ne _ _ _ _ _ (Ne.symm hqx)]
            exact hq
      refine ⟨stepChase N s, ?_, rfl, rfl, ?_, ?_, ?_⟩
      · simp only [chase]
        rw [if_pos hcond]
      · rw [hstep_p]
        simp [List.getLastD_cons]
      · show s.visited.set s.p true = s.visited.set x true
        rw [hpx]
      · show s.recorded ++ [((s.mem.getD s.p 0 : Int)) - (s.p : Int)] = _
        rw [hpx]
        rfl
    | cons y rest' =>
      have hxy : s.mem.getD x 0 = y := by
        have := hcons 0 (by simp)
        simpa using this
      have hy_unv : s.visited.getD y false = false := hunv y (by simp)
      have hxnotin : x ∉ (y :: rest') := (List.nodup_cons.mp hnd).1
      have hrest_nd : (y :: rest').Nodup := (List.nodup_cons.mp hnd).2
      have hxney : x ≠ y := fun hh => hxnotin (by rw [hh]; exact List.mem_cons_self _ _)
      have hcond : ¬((stepChase N s).visited.getD (stepChase N s).p false = true) := by
        rw [hstep_p, hxy]
        show ¬((s.visited.set s.p true).getD y false = true)
        rw [hpx, getD_set_ne _ _ _ _ _ hxney, hy_unv]
        simp
      have hstep_mem : (stepChase N s).mem = s.mem := rfl
      have hstep_vis : (stepChase N s).visited = s.visited.set s.p true := rfl
      have ihb : ∀ z ∈ (y :: rest'), z < N := fun z hz => hb z (List.mem_cons_of_mem _ hz)
      have ihunv : ∀ z ∈ (y :: rest'), (stepChase N s).visited.getD z false = false := by
        intro z hz
        rw [hstep_vis, hpx]
        have hzx : x ≠ z := fun hh => hxnotin (hh ▸ hz)
        rw [getD_set_ne _ _ _ _ _ hzx]
        exact hunv z (List.mem_cons_of_mem _ hz)
      have ihlen : (stepChase N s).visited.length = N := by
        rw [hstep_vis, List.length_set]
        exact hlen
      have ihp : (stepChase N s).p = (y :: rest').headI := by
        rw [hstep_p, hxy]
        rfl
      have ihcons : ∀ i, i + 1 < (y :: rest').length →
          (stepChase N s).mem.getD ((y :: rest').getD i 0) 0 = (y :: rest').getD (i + 1) 0 := by
        intro i hi
        have := hcons (i + 1) (by simp at hi ⊢; omega)
        simpa using this
      have hlast_eq : (x :: y :: rest').getLastD 0 = (y :: rest').getLastD 0 := by
        rw [List.getLastD_cons]
        exact getLastD_irrel _ x 0 (by simp)
      have ihlast : (stepChase N s).mem.getD ((y :: rest').getLastD 0) 0 ∈ (y :: rest') ∨
          (stepChase N s).visited.getD
            ((stepChase N s).mem.getD ((y :: rest').getLastD 0) 0) false = true := by
        rw [hstep_mem, hstep_vis, hpx, ← hlast_eq]
        rcases hlast with hin | htrue
        · rcases List.mem_cons.mp hin with hin | hin
          · right
            rw [hin]
            exact getD_set_self _ _ _ _ hxlen
          · left
            exact hin
        · right
          by_cases hqx : s.mem.getD ((x :: y :: rest').getLastD 0) 0 = x
          · rw [hqx]
            exact getD_set_self _ _ _ _ hxlen
          · rw [getD_set_ne _ _ _ _ _ (Ne.symm hqx)]
            exact htrue
      have ihfuel : (y :: rest').length ≤ f := by
        simp at hfuel ⊢
        omega
      obtain ⟨s', hchase, hmem', hcyc, hp', hvis, hrec⟩ :=
        ih f (stepChase N s) (by simp) hrest_nd ihb ihunv ihlen ihp ihcons ihlast ihfuel
      refine ⟨s', ?_, ?_, ?_, ?_, ?_, ?_⟩
      · simp only [chase]
        rw [if_neg hcond]
        exact hchase
      · rw [hmem', hstep_mem]
      · rw [hcyc]
        show (stepChase N s).cyclelength + _ = _
        have hsc : (stepChase N s).cyclelength = s.cyclelength + 1 := rfl
        rw [hsc]
        simp [List.length_cons]
        omega
      · rw [hp', hstep_mem, hlast_eq]
      · rw [hvis, hstep_vis, hpx]
        rfl
      · rw [hrec]
        show (s.recorded ++ [((s.mem.getD s.p 0 : Int)) - (s.p : Int)]) ++ _ = s.recorded ++ _
        rw [hpx, List.append_assoc]
        rfl

/- Lemmas about the Fisher-Yates shuffle model. -/

theorem set_getD_self : ∀ (l : List Nat) (i : Nat), i < l.length →
    l.set i (l.getD i 0) = l := by
  intro l
  induction l with
  | nil => intro i h; simp at h
  | cons a t ih =>
    intro i h
    cases i with
    | zero => rw [List.getD_cons_zero, List.set_cons_zero]
    | succ j => rw [List.getD_cons_succ, List.set_cons_succ, ih j (by simpa using h)]

theorem listSwap_length (l : List Nat) (i j : Nat) : (listSwap l i j).length = l.length := by
  unfold listSwap
  rw [List.length_set, List.length_set]

theorem listSwap_getD_ne (l : List Nat) (i j k : Nat) (hi : k ≠ i) (hj : k ≠ j) :
    (listSwap l i j).getD k 0 = l.getD k 0 := by
  unfold listSwap
  rw [getD_set_ne _ _ _ _ _ (Ne.symm hj), getD_set_ne _ _ _ _ _ (Ne.symm hi)]

theorem swap_perm_aux : ∀ (t : List Nat) (k a : Nat), k < t.length →
    (t.getD k 0 :: t.set k a).Perm (a :: t) := by
  intro t
  induction t with
  | nil => intro k a h; simp at h
  | cons b u ih =>
    intro k a h
    cases k with
    | zero =>
      rw [List.getD_cons_zero, List.set_cons_zero]
      exact List.Perm.swap a b u
    | succ k' =>
      rw [List.getD_cons_succ, List.set_cons_succ]
      have h1 : (u.getD k' 0 :: b :: u.set k' a).Perm (b :: u.getD k' 0 :: u.set k' a) :=
        List.Perm.swap b (u.getD k' 0) _
      have h2 : (b :: u.getD k' 0 :: u.set k' a).Perm (b :: a :: u) :=
        List.Perm.cons b (ih k' a (by simpa using h))
      have h3 : (b :: a :: u).Perm (a :: b :: u) := List.Perm.swap a b u
      exact (h1.trans h2).trans h3

theorem listSwap_perm_lt : ∀ (l : List Nat) (i j : Nat), i < j → j < l.length →
    (listSwap l i j).Perm l := by
  intro l
  induction l with
  | nil => intro i j hij hj; simp at hj
  | cons a t ih =>
    intro i j hij hj
    obtain ⟨k, rfl⟩ : ∃ k, j = k + 1 := ⟨j - 1, by omega⟩
    cases i with
    | zero =>
      simp only [listSwap, List.getD_cons_succ, List.getD_cons_zero, List.set_cons_zero,
        List.set_cons_succ]
      exact swap_perm_aux t k a (by simpa using hj)
    | succ i' =>
      simp only [listSwap, List.getD_cons_succ, List.set_cons_succ]
      exact List.Perm.cons a (ih i' k (by omega) (by simpa using hj))

theorem listSwap_perm (l : List Nat) (i j : Nat) (hi : i < l.length) (hj : j < l.length) :
    (listSwap l i j).Perm l := by
  rcases Nat.lt_trichotomy i j with h | h | h
  · exact listSwap_perm_lt l i j h hj
  · subst h
    unfold listSwap
    rw [List.set_set, set_getD_self l i hi]
  · have hcomm : listSwap l i j = listSwap l j i := by
      unfold listSwap
      rw [List.set_comm _ _ _ (by omega)]
    rw [hcomm]
    exact listSwap_perm_lt l j i h hi

theorem fyAux_length (picks : Nat → Nat) (lo : Nat) : ∀ (fuel : Nat) (l : List Nat),
    (fyAux picks lo fuel l).length = l.length := by
  intro fuel
  induction fuel with
  | zero => intro l; rfl
  | succ i ih =>
    intro l
    simp only [fyAux]
    rw [ih, listSwap_length]

theorem fyAux_perm (picks : Nat → Nat) (lo : Nat) : ∀ (fuel : Nat) (l : List Nat),
    lo + fuel < l.length → (fyAux picks lo fuel l).Perm l := by
  intro fuel
  induction fuel with
  | zero => intro l _; exact List.Perm.refl l
  | succ i ih =>
    intro l h
    simp only [fyAux]
    have hm : picks (i + 1) % (i + 2) < i + 2 := Nat.mod_lt _ (by omega)
    have hswap := listSwap_perm l (lo + (i + 1)) (lo + picks (i + 1) % (i + 2))
      (by omega) (by omega)
    exact (ih _ (by rw [listSwap_length]; omega)).trans hswap

theorem fyAux_getD_outside (picks : Nat → Nat) (lo : Nat) : ∀ (fuel : Nat) (l : List Nat)
    (k : Nat), (k < lo ∨ lo + fuel < k) →
    (fyAux picks lo fuel l).getD k 0 = l.getD k 0 := by
  intro fuel
  induction fuel with
  | zero => intro l k _; rfl
  | succ i ih =>
    intro l k hk
    simp only [fyAux]
    have hm : picks (i + 1) % (i + 2) < i + 2 := Nat.mod_lt _ (by omega)
    rw [ih _ k (by omega), listSwap_getD_ne l _ _ k (by omega) (by omega)]

theorem initOrder_length (N : Nat) : (initOrder N).length = N + 1 := by
  simp [initOrder]

theorem initOrder_getD_lt (N i : Nat) (h : i < N) : (initOrder N).getD i 0 = i := by
  rw [initOrder, List.getD_eq_getElem?_getD, List.getElem?_append,
    if_pos (by simpa using h), List.getElem?_range h]
  rfl

theorem initOrder_getD_N (N : Nat) : (initOrder N).getD N 0 = 0 := by
  rw [initOrder, List.getD_eq_getElem?_getD, List.getElem?_append,
    if_neg (by simp)]
  simp

theorem shuffledOrder_length (N : Nat) (picks : Nat → Nat) :
    (shuffledOrder N picks).length = N + 1 := by
  unfold shuffledOrder stdShuffle
  rw [fyAux_length, initOrder_length]

theorem shuffledOrder_getD_zero (N : Nat) (picks : Nat → Nat) (hN : 1 ≤ N) :
    (shuffledOrder N picks).getD 0 0 = 0 := by
  unfold shuffledOrder stdShuffle
  rw [fyAux_getD_outside _ _ _ _ 0 (Or.inl (by omega)), initOrder_getD_lt N 0 (by omega)]

theorem shuffledOrder_getD_penult (N : Nat) (picks : Nat → Nat) (hN : 3 ≤ N) :
    (shuffledOrder N picks).getD (N - 1) 0 = N - 1 := by
  unfold shuffledOrder stdShuffle
  rw [fyAux_getD_outside _ _ _ _ (N - 1) (Or.inr (by omega)),
    initOrder_getD_lt N (N - 1) (by omega)]

theorem shuffledOrder_getD_N (N : Nat) (picks : Nat → Nat) (hN : 2 ≤ N) :
    (shuffledOrder N picks).getD N 0 = 0 := by
  unfold shuffledOrder stdShuffle
  rw [fyAux_getD_outside _ _ _ _ N (Or.inr (by omega)), initOrder_getD_N N]

theorem shuffledOrder_perm (N : Nat) (picks : Nat → Nat) (hN : 2 ≤ N) :
    (shuffledOrder N picks).Perm (initOrder N) := by
  unfold shuffledOrder stdShuffle
  exact fyAux_perm _ _ _ _ (by rw [initOrder_length]; omega)

theorem shuffledOrder_take_perm (N : Nat) (picks : Nat → Nat) (hN : 2 ≤ N) :
    ((shuffledOrder N picks).take N).Perm (List.range N) := by
  have hlen := shuffledOrder_length N picks
  have hsplit := eq_take_append_last (shuffledOrder N picks) N hlen
  have hN0 : (shuffledOrder N picks).getD N 0 = 0 := shuffledOrder_getD_N N picks hN
  have hperm := shuffledOrder_perm N picks hN
  rw [initOrder] at hperm
  have h2 : (shuffledOrder N picks).take N ++ [(0 : Nat)] = shuffledOrder N picks := by
    conv_rhs => rw [hsplit]
    rw [hN0]
  have key : ((shuffledOrder N picks).take N ++ [(0 : Nat)]).Perm (List.range N ++ [0]) := by
    rw [h2]
    exact hperm
  exact (List.perm_append_right_iff [0]).mp key

/- Lemmas about the successor-array write loop. -/

theorem writeSuccAux_length (t : List Nat) : ∀ (steps i : Nat) (mem : List Nat),
    (writeSuccAux t i steps mem).length = mem.length := by
  intro steps
  induction steps with
  | zero => intro i mem; rfl
  | succ s ih =>
    intro i mem
    simp only [writeSuccAux]
    rw [ih, List.length_set]

theorem writeSuccAux_getD_notin (t : List Nat) : ∀ (steps i q : Nat) (mem : List Nat),
    (∀ k, i ≤ k → k < i + steps → t.getD k 0 ≠ q) →
    (writeSuccAux t i steps mem).getD q 0 = mem.getD q 0 := by
  intro steps
  induction steps with
  | zero => intro i q mem _; rfl
  | succ s ih =>
    intro i q mem hk
    simp only [writeSuccAux]
    rw [ih (i + 1) q _ (fun k h1 h2 => hk k (by omega) (by omega)),
      getD_set_ne _ _ _ _ _ (hk i (le_refl i) (by omega))]

theorem writeSuccAux_getD (t : List Nat) : ∀ (steps i k : Nat) (mem : List Nat),
    i ≤ k → k < i + steps →
    (∀ k1 k2, i ≤ k1 → k1 < k2 → k2 < i + steps → t.getD k1 0 ≠ t.getD k2 0) →
    t.getD k 0 < mem.length →
    (writeSuccAux t i steps mem).getD (t.getD k 0) 0 = t.getD (k + 1) 0 := by
  intro steps
  induction steps with
  | zero => intro i k mem h1 h2 _ _; exact absurd h2 (by omega)
  | succ s ih =>
    intro i k mem h1 h2 hdist hklen
    simp only [writeSuccAux]
    by_cases hik : k = i
    · subst hik
      rw [writeSuccAux_getD_notin t s (k + 1) _ _
        (fun k2 hk2a hk2b => Ne.symm (hdist k k2 (le_refl k) (by omega) (by omega)))]
      exact getD_set_self mem _ _ 0 hklen
    · exact ih (i + 1) k _ (by omega) (by omega)
        (fun k1 k2 a b c => hdist k1 k2 (by omega) b (by omega))
        (by rw [List.length_set]; exact hklen)

/- The full behaviour of the shuffle-based generator followed by the
verifier, for any size N ≥ 3 and any outcome of the random shuffle. -/

theorem getlist_analyze (N : Nat) (picks : Nat → Nat) (hN : 3 ≤ N) :
    ∃ s, analyze (getlist N picks) N = some s ∧
      s.cyclelength = N ∧
      s.visited.count true = N ∧
      s.p = 0 ∧
      (getlist N picks).getD (N - 1) 0 = 0 ∧
      (-((N : Int) - 1)) ∈ s.recorded := by
  have hlen_t : (shuffledOrder N picks).length = N + 1 := shuffledOrder_length N picks
  have htake := shuffledOrder_take_perm N picks (by omega)
  have hnodup : ((shuffledOrder N picks).take N).Nodup :=
    (htake.symm).nodup (List.nodup_range N)
  have hlen_path : ((shuffledOrder N picks).take N).length = N := by
    rw [List.length_take, hlen_t]
    exact min_eq_left (by omega)
  have hb_path : ∀ x ∈ (shuffledOrder N picks).take N, x < N := by
    intro x hx
    exact List.mem_range.mp (htake.mem_iff.mp hx)
  have hgetD_path : ∀ i, i < N → ((shuffledOrder N picks).take N).getD i 0 =
      (shuffledOrder N picks).getD i 0 := fun i hi => getD_take _ N i hi
  have hdist : ∀ k1 k2, 0 ≤ k1 → k1 < k2 → k2 < 0 + N →
      (shuffledOrder N picks).getD k1 0 ≠ (shuffledOrder N picks).getD k2 0 := by
    intro k1 k2 _ h12 h2N
    rw [← hgetD_path k1 (by omega), ← hgetD_path k2 (by omega)]
    exact nodup_getD_ne _ hnodup k1 k2 h12 (by rw [hlen_path]; omega)
  have hmemlen : (getlist N picks).length = N := by
    unfold getlist writeSucc
    rw [writeSuccAux_length, List.length_replicate]
  have hsucc : ∀ k, k < N → (getlist N picks).getD ((shuffledOrder N picks).getD k 0) 0 =
      (shuffledOrder N picks).getD (k + 1) 0 := by
    intro k hk
    unfold getlist writeSucc
    apply writeSuccAux_getD (shuffledOrder N picks) N 0 k _ (by omega) (by omega) hdist
    rw [List.length_replicate, ← hgetD_path k hk]
    exact hb_path _ (getD_mem _ k 0 (by rw [hlen_path]; omega))
  have hpath_ne : (shuffledOrder N picks).take N ≠ [] :=
    List.ne_nil_of_length_pos (by rw [hlen_path]; omega)
  have hheadI : ((shuffledOrder N picks).take N).headI = 0 := by
    rw [headI_eq_getD _ hpath_ne, hgetD_path 0 (by omega),
      shuffledOrder_getD_zero N picks (by omega)]
  have hlastD : ((shuffledOrder N picks).take N).getLastD 0 = N - 1 := by
    rw [getLastD_eq_getD _ hpath_ne, hlen_path, hgetD_path (N - 1) (by omega),
      shuffledOrder_getD_penult N picks hN]
  have hmem_last : (getlist N picks).getD (N - 1) 0 = 0 := by
    have h1 := hsucc (N - 1) (by omega)
    rw [shuffledOrder_getD_penult N picks hN] at h1
    have hsub : N - 1 + 1 = N := by omega
    rw [hsub] at h1
    rw [h1, shuffledOrder_getD_N N picks (by omega)]
  have hunv_path : ∀ x ∈ ((shuffledOrder N picks).take N),
      (initState (getlist N picks) N).visited.getD x false = false := by
    intro x _
    exact getD_replicate_self N x false
  have hvlen_path : (initState (getlist N picks) N).visited.length = N := by
    show (List.replicate N false).length = N
    rw [List.length_replicate]
  have hp0_path : (initState (getlist N picks) N).p =
      ((shuffledOrder N picks).take N).headI := by
    show (0 : Nat) = _
    rw [hheadI]
  have hcons_path : ∀ i, i + 1 < ((shuffledOrder N picks).take N).length →
      (initState (getlist N picks) N).mem.getD
        (((shuffledOrder N picks).take N).getD i 0) 0 =
      ((shuffledOrder N picks).take N).getD (i + 1) 0 := by
    intro i hi
    rw [hlen_path] at hi
    show (getlist N picks).getD (((shuffledOrder N picks).take N).getD i 0) 0 = _
    rw [hgetD_path i (by omega), hgetD_path (i + 1) hi]
    exact hsucc i (by omega)
  have hzero_mem : (0 : Nat) ∈ (shuffledOrder N picks).take N := by
    have hm : ((shuffledOrder N picks).take N).getD 0 0 ∈ (shuffledOrder N picks).take N :=
      getD_mem _ 0 0 (by rw [hlen_path]; omega)
    rw [hgetD_path 0 (by omega), shuffledOrder_getD_zero N picks (by omega)] at hm
    exact hm
  have hlast_path : (initState (getlist N picks) N).mem.getD
        (((shuffledOrder N picks).take N).getLastD 0) 0 ∈ ((shuffledOrder N picks).take N) ∨
      (initState (getlist N picks) N).visited.getD
        ((initState (getlist N picks) N).mem.getD
          (((shuffledOrder N picks).take N).getLastD 0) 0) false = true := by
    left
    show (getlist N picks).getD _ 0 ∈ _
    rw [hlastD, hmem_last]
    exact hzero_mem
  obtain ⟨s, hchase, hmem_eq, hcyc, hp, hvis, hrec⟩ :=
    chase_path N ((shuffledOrder N picks).take N) N (initState (getlist N picks) N)
      hpath_ne hnodup hb_path hunv_path hvlen_path hp0_path hcons_path hlast_path
      (by rw [hlen_path])
  refine ⟨s, hchase, ?_, ?_, ?_, hmem_last, ?_⟩
  · rw [hcyc, hlen_path]
    show 0 + N = N
    omega
  · rw [hvis]
    have hz : ∀ z ∈ ((shuffledOrder N picks).take N),
        z < ((initState (getlist N picks) N).visited).length ∧
        ((initState (getlist N picks) N).visited).getD z false = false := by
      intro z hzr
      exact ⟨by rw [hvlen_path]; exact hb_path z hzr, getD_replicate_self N z false⟩
    rw [foldl_set_true_count _ _ hnodup hz, hlen_path]
    show (List.replicate N false).count true + N = N
    rw [List.count_replicate]
    simp
  · rw [hp]
    show (getlist N picks).getD (((shuffledOrder N picks).take N).getLastD 0) 0 = 0
    rw [hlastD, hmem_last]
  · rw [hrec]
    show (-((N : Int) - 1)) ∈ [] ++ _
    rw [List.nil_append]
    apply List.mem_map.mpr
    refine ⟨N - 1, ?_, ?_⟩
    · have hm : ((shuffledOrder N picks).take N).getD (N - 1) 0 ∈
          (shuffledOrder N picks).take N :=
        getD_mem _ (N - 1) 0 (by rw [hlen_path]; omega)
      rw [hgetD_path (N - 1) (by omega), shuffledOrder_getD_penult N picks hN] at hm
      exact hm
    · show ((getlist N picks).getD (N - 1) 0 : Int) - ((N - 1 : Nat) : Int) = -((N : Int) - 1)
      rw [hmem_last]
      omega

/- Further helpers: splitting a take at its last element, and facts about
the verifier's initial state. -/

theorem take_split_last (l : List Nat) (n : Nat) (h : n < l.length) :
    l.take (n + 1) = l.take n ++ [l.getD n 0] := by
  rw [List.take_succ, List.getElem?_eq_getElem h, List.getD_eq_getElem l 0 h]
  rfl

theorem initState_visited_length (mem : List Nat) (N : Nat) :
    (initState mem N).visited.length = N := by
  show (List.replicate N false).length = N
  rw [List.length_replicate]

theorem initState_count_false (mem : List Nat) (N : Nat) :
    (initState mem N).visited.count false = N := by
  show (List.replicate N false).count false = N
  rw [List.count_replicate]
  simp

theorem traversal_invariant_aux (N : Nat) (t : List Nat) (hN : 3 ≤ N)
    (hlen : t.length = N + 1)
    (h0 : t.getD 0 0 = 0)
    (hpen : t.getD (N - 1) 0 = N - 1)
    (htake : (t.take N).Perm (List.range N)) :
    ((t.drop 1).take (N - 2)).Perm (List.range' 1 (N - 2)) ∧
    ((t.drop 1).take (N - 1)).Perm (List.range' 1 (N - 1)) := by
  have ht_ne : t ≠ [] := List.ne_nil_of_length_pos (by rw [hlen]; omega)
  have hdecomp : t.take N = 0 :: (t.drop 1).take (N - 1) := by
    have e : N = (N - 1) + 1 := by omega
    conv_lhs => rw [e]
    rw [take_succ_getD t (N - 1) ht_ne, h0]
  have hrange : List.range N = 0 :: List.range' 1 (N - 1) := by
    have e : N = (N - 1) + 1 := by omega
    rw [List.range_eq_range']
    conv_lhs => rw [e]
    rw [List.range'_succ]
  have hseg1 : ((t.drop 1).take (N - 1)).Perm (List.range' 1 (N - 1)) := by
    have h := htake
    rw [hdecomp, hrange] at h
    exact h.cons_inv
  have hdropgetD : (t.drop 1).getD (N - 2) 0 = N - 1 := by
    rw [List.getD_eq_getElem?_getD, List.getElem?_drop]
    have e2 : 1 + (N - 2) = N - 1 := by omega
    rw [e2, ← List.getD_eq_getElem?_getD]
    exact hpen
  have hsplit : (t.drop 1).take (N - 1) = (t.drop 1).take (N - 2) ++ [N - 1] := by
    have e : N - 2 + 1 = N - 1 := by omega
    conv_lhs => rw [← e]
    rw [take_split_last _ (N - 2) (by rw [List.length_drop, hlen]; omega), hdropgetD]
  have hrange2 : List.range' 1 (N - 1) = List.range' 1 (N - 2) ++ [N - 1] := by
    have happ := List.range'_append 1 (N - 2) 1 1
    rw [List.range'_one] at happ
    have e2 : 1 + 1 * (N - 2) = N - 1 := by omega
    rw [e2] at happ
    have e : N - 1 = 1 + (N - 2) := by omega
    conv_lhs => rw [e]
    exact happ.symm
  have hseg2 : ((t.drop 1).take (N - 2)).Perm (List.range' 1 (N - 2)) := by
    have h := hseg1
    rw [hsplit, hrange2] at h
    exact (List.perm_append_right_iff [N - 1]).mp h
  exact ⟨hseg2, hseg1⟩

/- Claim theorems. -/

/-- Claim C1: for every N ≥ 3 and every outcome of the random shuffle, the
successor array produced by the shuffle-based generator forms a single
Hamiltonian cycle of length N: the verifier walking it from index 0 visits
all N elements, reports cycle_length = N, returns to index 0, and reports
coverage_percent = 100.0. -/
theorem shuffle_generator_full_coverage (N : Nat) (picks : Nat → Nat) (hN : 3 ≤ N) :
    ∃ s, analyze (getlist N picks) N = some s ∧
      s.cyclelength = N ∧
      s.visited.count true = N ∧
      s.p = 0 ∧
      coveragePercent N s.cyclelength = 100 := by
  obtain ⟨s, h1, h2, h3, h4, _, _⟩ := getlist_analyze N picks hN
  refine ⟨s, h1, h2, h3, h4, ?_⟩
  rw [h2]
  unfold coveragePercent
  have hq : (N : ℚ) ≠ 0 := Nat.cast_ne_zero.mpr (by omega)
  rw [mul_div_assoc, div_self hq, mul_one]

/-- Witness for C1 at N = 3 with an arbitrary fixed pick stream. -/
theorem shuffle_generator_full_coverage_witness :
    3 ≤ 3 ∧ ∃ s, analyze (getlist 3 (fun _ => 0)) 3 = some s ∧
      s.cyclelength = 3 ∧
      s.visited.count true = 3 ∧
      s.p = 0 ∧
      coveragePercent 3 s.cyclelength = 100 :=
  ⟨by omega, shuffle_generator_full_coverage 3 (fun _ => 0) (by omega)⟩

/-- Claim C2: for every successor array whose every slot references an index
in 0..N-1, the chase loop terminates within an iteration budget of N (each
iteration marks one previously unvisited index and indices are never
unmarked), and the resulting cycle_length lies in [1, N]. -/
theorem verifier_terminates_cyclelength_bounds (N : Nat) (mem : List Nat)
    (hN : 1 ≤ N) (hmem : ∀ i, i < N → mem.getD i 0 < N) :
    ∃ s, analyze mem N = some s ∧ 1 ≤ s.cyclelength ∧ s.cyclelength ≤ N := by
  obtain ⟨s, h1, h2, h3⟩ := chase_total N N (initState mem N) hmem
    (initState_visited_length mem N)
    (by show 0 < N; omega)
    (getD_replicate_self N 0 false)
    (by rw [initState_count_false])
  have hc0 : (initState mem N).cyclelength = 0 := rfl
  have hcnt := initState_count_false mem N
  exact ⟨s, h1, by omega, by omega⟩

/-- Witness for C2 on the 3-element identity cycle. -/
theorem verifier_terminates_cyclelength_bounds_witness :
    1 ≤ 3 ∧ ∃ s, analyze [1, 2, 0] 3 = some s ∧ 1 ≤ s.cyclelength ∧ s.cyclelength ≤ 3 :=
  ⟨by omega, verifier_terminates_cyclelength_bounds 3 [1, 2, 0] (by omega) (by decide)⟩

/-- Claim C3: the shuffle permutes exactly the interior positions 1..N-2 of
traversal_order: positions 0, N-1 and N keep their initial values 0, N-1, 0,
and the interior segment remains a permutation of {1,...,N-2}; consequently
the traversal-order invariant holds, namely the first and last entries are 0
and the entries at positions 1..N-1 form a permutation of {1,...,N-1}. -/
theorem shuffle_interior_invariant (N : Nat) (picks : Nat → Nat) (hN : 3 ≤ N) :
    (shuffledOrder N picks).getD 0 0 = 0 ∧
    (shuffledOrder N picks).getD (N - 1) 0 = N - 1 ∧
    (shuffledOrder N picks).getD N 0 = 0 ∧
    (((shuffledOrder N picks).drop 1).take (N - 2)).Perm (List.range' 1 (N - 2)) ∧
    (((shuffledOrder N picks).drop 1).take (N - 1)).Perm (List.range' 1 (N - 1)) := by
  obtain ⟨h2a, h2b⟩ := traversal_invariant_aux N (shuffledOrder N picks) hN
    (shuffledOrder_length N picks) (shuffledOrder_getD_zero N picks (by omega))
    (shuffledOrder_getD_penult N picks hN) (shuffledOrder_take_perm N picks (by omega))
  exact ⟨shuffledOrder_getD_zero N picks (by omega), shuffledOrder_getD_penult N picks hN,
    shuffledOrder_getD_N N picks (by omega), h2a, h2b⟩

/-- Witness for C3 at N = 4 with an arbitrary fixed pick stream. -/
theorem shuffle_interior_invariant_witness :
    3 ≤ 4 ∧
    ((shuffledOrder 4 (fun i => i + 5)).getD 0 0 = 0 ∧
    (shuffledOrder 4 (fun i => i + 5)).getD 3 0 = 3 ∧
    (shuffledOrder 4 (fun i => i + 5)).getD 4 0 = 0 ∧
    (((shuffledOrder 4 (fun i => i + 5)).drop 1).take 2).Perm (List.range' 1 2) ∧
    (((shuffledOrder 4 (fun i => i + 5)).drop 1).take 3).Perm (List.range' 1 3)) :=
  ⟨by omega, shuffle_interior_invariant 4 (fun i => i + 5) (by omega)⟩

/-- Counterexample to claim C4: for N = 2 the shuffle-based generator does
not fail at all; it silently returns the well-defined successor array
[1, 0] (slot 0 points to slot 1 and slot 1 back to slot 0), on which the
verifier even reports a full cycle of length 2 with 100 percent coverage.
No error path exists in the generator. -/
theorem small_n_no_error_counterexample :
    getlist 2 (fun _ => 0) = [1, 0] ∧
    (analyze (getlist 2 (fun _ => 0)) 2).map (fun s => (s.cyclelength, s.p)) = some (2, 0) ∧
    coveragePercent 2 2 = 100 := by
  refine ⟨by decide, by decide, ?_⟩
  unfold coveragePercent
  norm_num

/-- Amended claim C4: the generator performs no size validation.  For N = 2
it raises no error and deterministically returns the successor array [1, 0]
(a valid 2-cycle), independent of the random draws; for N = 1 the code hands
std::shuffle the invalid iterator range [t+1, t+0), which is undefined
behaviour, again with no explicit error. -/
theorem small_n_defined_two_cycle (picks : Nat → Nat) :
    getlist 2 picks = [1, 0] := rfl

/-- Counterexample to claim C5: corrupting the final entry of a cycle (the
slot whose successor is index 0) to point to itself does not drop coverage
below 100.  The valid 3-cycle array [1, 2, 0] (built from traversal order
[0, 1, 2, 0]) corrupted at slot 2 gives [1, 2, 2], on which the verifier
still reports cycle_length = 3, all 3 slots visited, and coverage 100. -/
theorem corrupt_last_entry_counterexample :
    (writeSucc ([0, 1, 2] ++ [0]) 3).set 2 2 = [1, 2, 2] ∧
    (analyze [1, 2, 2] 3).map (fun s => (s.cyclelength, s.visited.count true)) =
      some (3, 3) ∧
    ¬ coveragePercent 3 3 < 100 := by
  refine ⟨by decide, by decide, ?_⟩
  unfold coveragePercent
  norm_num

/-- Amended claim C5: corrupt one entry of a valid single-N-cycle successor
array to reference its own slot, say the entry at cycle position k (the
cycle being c₀ = 0, c₁, ..., c_(N-1)).  The verifier starting at index 0
then reports cycle_length = k + 1, which equals the number of elements of
the sub-chain reached from index 0 (the visited set), and coverage_percent
is below 100 exactly when k + 1 < N, i.e. unless the corrupted entry is the
final element of the cycle. -/
theorem corrupt_self_loop_subchain (N k : Nat) (c : List Nat)
    (hlen : c.length = N) (hnd : c.Nodup) (hb : ∀ x ∈ c, x < N)
    (h0 : c.getD 0 0 = 0) (hk : k < N) :
    ∃ s, analyze ((writeSucc (c ++ [0]) N).set (c.getD k 0) (c.getD k 0)) N = some s ∧
      s.cyclelength = k + 1 ∧
      s.visited.count true = k + 1 ∧
      (coveragePercent N s.cyclelength < 100 ↔ k + 1 < N) := by
  have htc : ∀ i, i < N → (c ++ [0]).getD i 0 = c.getD i 0 := by
    intro i hi
    rw [List.getD_eq_getElem?_getD, List.getElem?_append, if_pos (by rw [hlen]; exact hi),
      ← List.getD_eq_getElem?_getD]
  have hdist : ∀ k1 k2, 0 ≤ k1 → k1 < k2 → k2 < 0 + N →
      (c ++ [0]).getD k1 0 ≠ (c ++ [0]).getD k2 0 := by
    intro k1 k2 _ h12 h2N
    rw [htc k1 (by omega), htc k2 (by omega)]
    exact nodup_getD_ne c hnd k1 k2 h12 (by rw [hlen]; omega)
  have hmem0len : (writeSucc (c ++ [0]) N).length = N := by
    unfold writeSucc
    rw [writeSuccAux_length, List.length_replicate]
  have hsucc0 : ∀ i, i < N →
      (writeSucc (c ++ [0]) N).getD (c.getD i 0) 0 = (c ++ [0]).getD (i + 1) 0 := by
    intro i hi
    unfold writeSucc
    rw [← htc i hi]
    apply writeSuccAux_getD (c ++ [0]) N 0 i _ (by omega) (by omega) hdist
    rw [List.length_replicate, htc i hi]
    exact hb _ (getD_mem c i 0 (by rw [hlen]; exact hi))
  have hckN : c.getD k 0 < N := hb _ (getD_mem c k 0 (by rw [hlen]; exact hk))
  have hmemlen : ((writeSucc (c ++ [0]) N).set (c.getD k 0) (c.getD k 0)).length = N := by
    rw [List.length_set, hmem0len]
  have hpath_len : (c.take (k + 1)).length = k + 1 := by
    rw [List.length_take, hlen]
    exact min_eq_left (by omega)
  have hpath_ne : c.take (k + 1) ≠ [] :=
    List.ne_nil_of_length_pos (by rw [hpath_len]; omega)
  have hpath_nd : (c.take (k + 1)).Nodup := List.Nodup.sublist (List.take_sublist _ _) hnd
  have hpath_b : ∀ x ∈ c.take (k + 1), x < N :=
    fun x hx => hb x ((List.take_sublist _ _).subset hx)
  have hpath_getD : ∀ i, i < k + 1 → (c.take (k + 1)).getD i 0 = c.getD i 0 :=
    fun i hi => getD_take c (k + 1) i hi
  have hlastD : (c.take (k + 1)).getLastD 0 = c.getD k 0 := by
    rw [getLastD_eq_getD _ hpath_ne, hpath_len]
    exact hpath_getD k (by omega)
  have hself : ((writeSucc (c ++ [0]) N).set (c.getD k 0) (c.getD k 0)).getD
      (c.getD k 0) 0 = c.getD k 0 :=
    getD_set_self _ _ _ _ (by rw [hmem0len]; exact hckN)
  have hcons_path : ∀ i, i + 1 < (c.take (k + 1)).length →
      (initState ((writeSucc (c ++ [0]) N).set (c.getD k 0) (c.getD k 0)) N).mem.getD
        ((c.take (k + 1)).getD i 0) 0 = (c.take (k + 1)).getD (i + 1) 0 := by
    intro i hi
    rw [hpath_len] at hi
    show ((writeSucc (c ++ [0]) N).set (c.getD k 0) (c.getD k 0)).getD
      ((c.take (k + 1)).getD i 0) 0 = _
    rw [hpath_getD i (by omega), hpath_getD (i + 1) hi]
    have hne : c.getD k 0 ≠ c.getD i 0 := by
      have : i < k := by omega
      exact Ne.symm (nodup_getD_ne c hnd i k this (by rw [hlen]; omega))
    rw [getD_set_ne _ _ _ _ _ hne, hsucc0 i (by omega), htc (i + 1) (by omega)]
  have hzero_mem : (0 : Nat) ∈ c.take (k + 1) := by
    have hm := getD_mem (c.take (k + 1)) 0 0 (by rw [hpath_len]; omega)
    rw [hpath_getD 0 (by omega), h0] at hm
    exact hm
  have hck_mem : c.getD k 0 ∈ c.take (k + 1) := by
    have hm := getD_mem (c.take (k + 1)) k 0 (by rw [hpath_len]; omega)
    rw [hpath_getD k (by omega)] at hm
    exact hm
  have hlast_path : (initState ((writeSucc (c ++ [0]) N).set (c.getD k 0) (c.getD k 0)) N).mem.getD
        ((c.take (k + 1)).getLastD 0) 0 ∈ c.take (k + 1) ∨
      (initState ((writeSucc (c ++ [0]) N).set (c.getD k 0) (c.getD k 0)) N).visited.getD
        ((initState ((writeSucc (c ++ [0]) N).set (c.getD k 0) (c.getD k 0)) N).mem.getD
          ((c.take (k + 1)).getLastD 0) 0) false = true := by
    left
    show ((writeSucc (c ++ [0]) N).set (c.getD k 0) (c.getD k 0)).getD
      ((c.take (k + 1)).getLastD 0) 0 ∈ _
    rw [hlastD, hself]
    exact hck_mem
  obtain ⟨s, hchase, hmem_eq, hcyc, hp, hvis, hrec⟩ :=
    chase_path N (c.take (k + 1)) N
      (initState ((writeSucc (c ++ [0]) N).set (c.getD k 0) (c.getD k 0)) N)
      hpath_ne hpath_nd hpath_b
      (fun x _ => getD_replicate_self N x false)
      (initState_visited_length _ N)
      (by show (0 : Nat) = _; rw [headI_eq_getD _ hpath_ne, hpath_getD 0 (by omega), h0])
      hcons_path hlast_path
      (by rw [hpath_len]; omega)
  have hcyc' : s.cyclelength = k + 1 := by
    rw [hcyc, hpath_len]
    show 0 + (k + 1) = k + 1
    omega
  refine ⟨s, hchase, hcyc', ?_, ?_⟩
  · rw [hvis]
    have hz : ∀ z ∈ c.take (k + 1),
        z < (initState ((writeSucc (c ++ [0]) N).set (c.getD k 0) (c.getD k 0)) N).visited.length ∧
        (initState ((writeSucc (c ++ [0]) N).set (c.getD k 0) (c.getD k 0)) N).visited.getD
          z false = false := by
      intro z hzr
      exact ⟨by rw [initState_visited_length]; exact hpath_b z hzr,
        getD_replicate_self N z false⟩
    rw [foldl_set_true_count _ _ hpath_nd hz, hpath_len]
    show (List.replicate N false).count true + (k + 1) = k + 1
    rw [List.count_replicate]
    simp
  · rw [hcyc']
    unfold coveragePercent
    have hN0 : (0 : ℚ) < (N : ℚ) := by
      have : 0 < N := by omega
      exact_mod_cast this
    rw [div_lt_iff₀ hN0]
    push_cast
    constructor
    · intro h
      by_contra hc
      push_neg at hc
      have hcq : (N : ℚ) ≤ (k : ℚ) + 1 := by exact_mod_cast hc
      linarith
    · intro h
      have hcq : (k : ℚ) + 1 < (N : ℚ) := by exact_mod_cast h
      linarith

/-- Witness for the amended C5: the 4-cycle 0 → 2 → 1 → 3 → 0 corrupted at
cycle position 1 (slot 2 made to point to itself). -/
theorem corrupt_self_loop_subchain_witness :
    ([0, 2, 1, 3] : List Nat).length = 4 ∧
    ∃ s, analyze ((writeSucc ([0, 2, 1, 3] ++ [0]) 4).set 2 2) 4 = some s ∧
      s.cyclelength = 2 ∧
      s.visited.count true = 2 ∧
      (coveragePercent 4 s.cyclelength < 100 ↔ 2 < 4) :=
  ⟨by decide, corrupt_self_loop_subchain 4 1 [0, 2, 1, 3] (by decide) (by decide)
    (by decide) (by decide) (by decide)⟩

/-- Claim C6: after every verification run on a successor array whose slots
all reference indices in 0..N-1, the sum of the occurrence counts over all
2N stride-histogram buckets equals cycle_length (one stride is recorded per
iteration of the chase loop). -/
theorem histogram_sum_eq_cyclelength (N : Nat) (mem : List Nat) (hN : 1 ≤ N)
    (hmem : ∀ i, i < N → mem.getD i 0 < N) :
    ∃ s, analyze mem N = some s ∧ s.strides.sum = s.cyclelength := by
  obtain ⟨s, h1, _, _⟩ := chase_total N N (initState mem N) hmem
    (initState_visited_length mem N)
    (by show 0 < N; omega)
    (getD_replicate_self N 0 false)
    (by rw [initState_count_false])
  refine ⟨s, h1, ?_⟩
  apply chase_sum N N (initState mem N) s h1 hmem (by show 0 < N; omega)
  · show (List.replicate (2 * N) 0).length = 2 * N
    rw [List.length_replicate]
  · show (List.replicate (2 * N) 0).sum = 0
    simp

/-- Witness for C6 on the 3-element identity cycle. -/
theorem histogram_sum_eq_cyclelength_witness :
    1 ≤ 3 ∧ ∃ s, analyze [1, 2, 0] 3 = some s ∧ s.strides.sum = s.cyclelength :=
  ⟨by omega, histogram_sum_eq_cyclelength 3 [1, 2, 0] (by omega) (by decide)⟩

/-- Claim C7: on a successor array whose slots all reference indices in
0..N-1, every stride recorded by the verifier lies in [-(N-1), N-1], so the
histogram access at index N + stride stays within the bounds 0..2N-1 of the
2N-element strides buffer. -/
theorem recorded_strides_in_bounds (N : Nat) (mem : List Nat) (hN : 1 ≤ N)
    (hmem : ∀ i, i < N → mem.getD i 0 < N) :
    ∃ s, analyze mem N = some s ∧ s.strides.length = 2 * N ∧
      ∀ x ∈ s.recorded, -((N : Int) - 1) ≤ x ∧ x ≤ (N : Int) - 1 ∧
        0 ≤ (N : Int) + x ∧ (N : Int) + x ≤ 2 * (N : Int) - 1 := by
  obtain ⟨s, h1, _, _⟩ := chase_total N N (initState mem N) hmem
    (initState_visited_length mem N)
    (by show 0 < N; omega)
    (getD_replicate_self N 0 false)
    (by rw [initState_count_false])
  refine ⟨s, h1, ?_, ?_⟩
  · rw [chase_strides_length N N _ s h1]
    show (List.replicate (2 * N) 0).length = 2 * N
    rw [List.length_replicate]
  · intro x hx
    have h2 := chase_recorded N N (initState mem N) s h1 hmem (by show 0 < N; omega)
      (by intro z hz; exact absurd hz (List.not_mem_nil z)) x hx
    exact ⟨h2.1, h2.2, by omega, by omega⟩

/-- Witness for C7 on the 3-element identity cycle. -/
theorem recorded_strides_in_bounds_witness :
    1 ≤ 3 ∧ ∃ s, analyze [1, 2, 0] 3 = some s ∧ s.strides.length = 2 * 3 ∧
      ∀ x ∈ s.recorded, -((3 : Int) - 1) ≤ x ∧ x ≤ (3 : Int) - 1 ∧
        0 ≤ (3 : Int) + x ∧ (3 : Int) + x ≤ 2 * (3 : Int) - 1 :=
  ⟨by omega, recorded_strides_in_bounds 3 [1, 2, 0] (by omega) (by decide)⟩

/-- Counterexample to claim C8: the histogram reporter has no guard on the
bar-length division.  When all 20 display buckets are empty (maxAmount = 0)
the computation `40 * hist[i] / maxAmount` divides by zero — undefined
behaviour, modelled as `none` — so the buckets are NOT rendered as 0-length
bars. -/
theorem reporter_empty_hist_counterexample :
    barDots (List.replicate 20 0) = none ∧
    ¬ barDots (List.replicate 20 0) = some (List.replicate 20 0) := by
  refine ⟨by decide, by decide⟩

/-- Amended claim C8: the division computing the bar length is not guarded.
The reporter renders no bars (the division is a division by zero, undefined
behaviour) exactly when all display buckets are empty, i.e. when
maxAmount = 0; whenever some bucket is nonempty the bars are well defined. -/
theorem reporter_none_iff_empty (hist : List Nat) :
    barDots hist = none ↔ maxAmount hist = 0 := by
  unfold barDots
  by_cases h : maxAmount hist = 0
  · rw [if_pos h]
    simp [h]
  · rw [if_neg h]
    simp [h]

/-- Claim C9: the verifier is deterministic in its input and does not mutate
the successor array: the state after analysis carries the very same array,
and running analyze a second time on that unmodified array returns the
identical result (same cycle_length, coverage, histogram). -/
theorem analyze_idempotent_no_mutation (N : Nat) (mem : List Nat) (hN : 1 ≤ N)
    (hmem : ∀ i, i < N → mem.getD i 0 < N) :
    ∃ s, analyze mem N = some s ∧ s.mem = mem ∧ analyze s.mem N = some s := by
  obtain ⟨s, h1, _, _⟩ := chase_total N N (initState mem N) hmem
    (initState_visited_length mem N)
    (by show 0 < N; omega)
    (getD_replicate_self N 0 false)
    (by rw [initState_count_false])
  have hm : s.mem = mem := by
    rw [chase_mem_eq N N _ s h1]
    rfl
  exact ⟨s, h1, hm, by rw [hm]; exact h1⟩

/-- Witness for C9 on the 3-element identity cycle. -/
theorem analyze_idempotent_no_mutation_witness :
    1 ≤ 3 ∧ ∃ s, analyze [1, 2, 0] 3 = some s ∧ s.mem = [1, 2, 0] ∧
      analyze s.mem 3 = some s :=
  ⟨by omega, analyze_idempotent_no_mutation 3 [1, 2, 0] (by omega) (by decide)⟩

/-- Claim C10: for every N ≥ 3 and every outcome of the random shuffle, the
generator's output has slot N-1 holding the address of slot 0 (position N-1
of traversal_order is excluded from the shuffle), and therefore the stride
-(N-1) is recorded at least once in every verification of its output. -/
theorem slot_last_points_to_start (N : Nat) (picks : Nat → Nat) (hN : 3 ≤ N) :
    (getlist N picks).getD (N - 1) 0 = 0 ∧
    ∃ s, analyze (getlist N picks) N = some s ∧ (-((N : Int) - 1)) ∈ s.recorded := by
  obtain ⟨s, h1, _, _, _, h5, h6⟩ := getlist_analyze N picks hN
  exact ⟨h5, s, h1, h6⟩

/-- Witness for C10 at N = 4 with an arbitrary fixed pick stream. -/
theorem slot_last_points_to_start_witness :
    3 ≤ 4 ∧
    ((getlist 4 (fun i => 3 * i + 1)).getD 3 0 = 0 ∧
    ∃ s, analyze (getlist 4 (fun i => 3 * i + 1)) 4 = some s ∧
      (-((4 : Int) - 1)) ∈ s.recorded) :=
  ⟨by omega, slot_last_points_to_start 4 (fun i => 3 * i + 1) (by omega)⟩
